import Mathlib

/-!
Verification model of the `see` utility (src/see.c): a minimal `cat`
implementation.  The stream-copy engine, path dispatcher and entry
sequencer are embedded as pure Lean functions over explicit I/O event
scripts: a read script lists the successive results of `fread` on an
input stream, a write script lists the behaviours of successive
`fwrite` calls on the shared standard output, and flush scripts list
the errno outcomes of successive `fflush` attempts.  Diagnostics,
bytes handed to standard output, per-path verdicts and the fwrite call
trace are all returned explicitly so that the observable behaviour of
the C program can be stated and proved.
-/

namespace See

/-- The I/O buffer size from see.c: `#define BUFFER_SIZE (64 * 1024)`. -/
def BUFFER_SIZE : Nat := 64 * 1024

/-- The errno values the program distinguishes: EINTR, EPIPE, anything else. -/
inductive Errno where
  | eintr : Errno
  | epipe : Errno
  | other : Errno
deriving DecidableEq

/-- Result of one `fread` call on an input stream.
`bytes chunk` means the call returned `chunk.length` bytes (the next bytes
of the stream); `eofR` means it returned 0 with the end-of-file flag set;
`err e` means it returned 0 with the error flag set and `errno = e`;
`zeroNoErr` means it returned 0 with neither flag set. -/
inductive ReadRes where
  | bytes (chunk : List Nat) : ReadRes
  | eofR : ReadRes
  | err (e : Errno) : ReadRes
  | zeroNoErr : ReadRes
deriving DecidableEq

/-- Behaviour of one `fwrite` call on standard output.
`accept k` means the call transfers `min k requested` bytes and sets no
error flag (accepting 0 models the "unexpected zero write" case);
`werr e` means the call returns 0 with the stream error flag set and
`errno = e`.  An exhausted write script means every further `fwrite`
transfers everything requested. -/
inductive WriteEvent where
  | accept (k : Nat) : WriteEvent
  | werr (e : Errno) : WriteEvent
deriving DecidableEq

/-- A diagnostic line emitted on standard error, abstracted to its kind
and the name it mentions. -/
inductive Diag where
  | readErr (name : String) : Diag
  | writeErr : Diag
  | writeZero : Diag
  | openErr (path : String) : Diag
  | closeErr (path : String) : Diag
  | flushOutErr : Diag
deriving DecidableEq

/-- Trace record of one `fwrite` call issued by the write loop:
`total` is `written_total` (the write-progress cursor) at the time of the
call and `requested` is `bytes_read - written_total`, the length passed
to `fwrite`. -/
structure WCall where
  total : Nat
  requested : Nat
deriving DecidableEq

/-- Outcome of the inner write loop of `copy_stream` for one chunk. -/
inductive WOut where
  | completed : WOut
  | pipe : WOut
  | failed (d : Diag) : WOut
deriving DecidableEq

/-- Result of the inner write loop: its outcome, the bytes actually
transferred to standard output, the unconsumed write script, and the
trace of `fwrite` calls issued. -/
structure WRes where
  outcome : WOut
  out : List Nat
  rest : List WriteEvent
  calls : List WCall
deriving DecidableEq

/-- The inner write loop of `copy_stream` (see.c lines 287-312):
`while (written_total < bytes_read)` issue
`fwrite(buffer + written_total, 1, bytes_read - written_total, stdout)`;
a zero return with `errno == EPIPE` clears the error and returns success,
with `errno == EINTR` clears the error and retries, with another errno is
a write error, and with no error flag is an unexpected zero write error. -/
def writeLoop (chunk : List Nat) : Nat → List WriteEvent → WRes
  | total, w =>
    if chunk.length ≤ total then ⟨.completed, [], w, []⟩
    else
      match w with
      | [] => ⟨.completed, chunk.drop total, [], [⟨total, chunk.length - total⟩]⟩
      | .accept k :: rest =>
          let req := chunk.length - total
          let acc := min k req
          if acc = 0 then ⟨.failed .writeZero, [], rest, [⟨total, req⟩]⟩
          else
            let r := writeLoop chunk (total + acc) rest
            ⟨r.outcome, (chunk.drop total).take acc ++ r.out, r.rest, ⟨total, req⟩ :: r.calls⟩
      | .werr .eintr :: rest =>
          let r := writeLoop chunk total rest
          ⟨r.outcome, r.out, r.rest, ⟨total, chunk.length - total⟩ :: r.calls⟩
      | .werr .epipe :: rest => ⟨.pipe, [], rest, [⟨total, chunk.length - total⟩]⟩
      | .werr .other :: rest => ⟨.failed .writeErr, [], rest, [⟨total, chunk.length - total⟩]⟩

/-- Result of `copy_stream`: the C return code (0 success, 1 failure),
the bytes transferred to standard output, the unconsumed read and write
scripts, the diagnostics emitted, and the `fwrite` call trace. -/
structure CopyRes where
  rc : Nat
  out : List Nat
  restR : List ReadRes
  restW : List WriteEvent
  diags : List Diag
  calls : List WCall
deriving DecidableEq

/-- The stream-copy engine `copy_stream` (see.c lines 263-316): read up to
`BUFFER_SIZE` bytes; on a zero read, end-of-file and a flagless zero read
break with success, an `EINTR` read error is cleared and retried, any
other read error is diagnosed and fails; on a positive read, run the
write loop, where a completed loop continues with the next read, a broken
pipe returns success immediately and a write failure returns 1. -/
def copy_stream (name : String) : List ReadRes → List WriteEvent → CopyRes
  | [], w => ⟨0, [], [], w, [], []⟩
  | .eofR :: rest, w => ⟨0, [], rest, w, [], []⟩
  | .zeroNoErr :: rest, w => ⟨0, [], rest, w, [], []⟩
  | .err .eintr :: rest, w => copy_stream name rest w
  | .err .epipe :: rest, w => ⟨1, [], rest, w, [.readErr name], []⟩
  | .err .other :: rest, w => ⟨1, [], rest, w, [.readErr name], []⟩
  | .bytes chunk :: rest, w =>
      if chunk.length = 0 then ⟨0, [], rest, w, [], []⟩
      else
        let r := writeLoop chunk 0 w
        match r.outcome with
        | .completed =>
            let c := copy_stream name rest r.rest
            ⟨c.rc, r.out ++ c.out, c.restR, c.restW, c.diags, r.calls ++ c.calls⟩
        | .pipe => ⟨0, r.out, rest, r.rest, [], r.calls⟩
        | .failed d => ⟨1, r.out, rest, r.rest, [d], r.calls⟩

/-- The behaviour of one named file in the file system: whether `fopen`
succeeds, the `fread` result script of the opened handle, and whether
`fclose` succeeds. -/
structure FileSpec where
  ok : Bool
  reads : List ReadRes
  closeOk : Bool

/-- Result of `process_path`: the C return code, the bytes transferred to
standard output, the unconsumed write script, the diagnostics emitted,
whether a file handle was opened and whether one was closed, and the
`fwrite` call trace. -/
structure PRes where
  rc : Nat
  out : List Nat
  restW : List WriteEvent
  diags : List Diag
  opened : Bool
  closed : Bool
  calls : List WCall
deriving DecidableEq

/-- The path dispatcher `process_path` (see.c lines 318-348): `NULL` or
`"-"` delegates to `copy_stream` on standard input (no handle opened or
closed); otherwise the path is opened (`fopen` failure is diagnosed and
returns 1 without copying), copied, and unconditionally closed, a close
failure being diagnosed and forcing the verdict to 1.  The second
component of the result is the remaining standard-input read script. -/
def process_path (fs : String → FileSpec) (stdinR : List ReadRes)
    (path : Option String) (w : List WriteEvent) : PRes × List ReadRes :=
  match path with
  | none =>
      let c := copy_stream "stdin" stdinR w
      (⟨c.rc, c.out, c.restW, c.diags, false, false, c.calls⟩, c.restR)
  | some p =>
      if p = "-" then
        let c := copy_stream "stdin" stdinR w
        (⟨c.rc, c.out, c.restW, c.diags, false, false, c.calls⟩, c.restR)
      else if (fs p).ok then
        let c := copy_stream p (fs p).reads w
        (⟨if (fs p).closeOk then c.rc else 1,
          c.out, c.restW,
          c.diags ++ (if (fs p).closeOk then [] else [Diag.closeErr p]),
          true, true, c.calls⟩, stdinR)
      else
        (⟨1, [], w, [Diag.openErr p], false, false, []⟩, stdinR)

/-- An item printed to standard output: a copied byte, the usage text of
`usage()`, or the version line of `version()`. -/
inductive Out where
  | byte (b : Nat) : Out
  | help : Out
  | vers : Out
deriving DecidableEq

/-- How `main`'s argument loop (see.c lines 366-379) treats one argument:
only when option recognition has not been ended by `--` and the argument
starts with `-` are the literals `--`, `-h`/`--help` and `-v`/`--version`
recognized; everything else is a file path. -/
inductive ArgClass where
  | endOpts : ArgClass
  | help : ArgClass
  | vers : ArgClass
  | path : ArgClass
deriving DecidableEq

/-- First character test `arg[0] == '-'` of see.c line 370. -/
def startsDash (s : String) : Bool :=
  match s.data with
  | [] => false
  | c :: _ => c = '-'

/-- Classification of one argument by `main`'s loop. -/
def classify (optionsEnded : Bool) (arg : String) : ArgClass :=
  if optionsEnded = false ∧ startsDash arg = true then
    if arg = "--" then .endOpts
    else if arg = "-h" ∨ arg = "--help" then .help
    else if arg = "-v" ∨ arg = "--version" then .vers
    else .path
  else .path

/-- The mutable state of `main`'s argument loop. -/
structure LoopState where
  optionsEnded : Bool
  filesProcessed : Bool
  rc : Nat
  out : List Out
  diags : List Diag
  pathRcs : List Nat
  stdinR : List ReadRes
  w : List WriteEvent
  calls : List WCall
deriving DecidableEq

/-- One path dispatch inside `main`'s loop: `overall_rc |= process_path(arg)`
and `files_processed = 1` (see.c lines 381-384). -/
def dispatch (fs : String → FileSpec) (st : LoopState) (path : Option String) : LoopState :=
  let pr := process_path fs st.stdinR path st.w
  { st with
    filesProcessed := true
    rc := max st.rc pr.1.rc
    out := st.out ++ pr.1.out.map Out.byte
    diags := st.diags ++ pr.1.diags
    pathRcs := st.pathRcs ++ [pr.1.rc]
    stdinR := pr.2
    w := pr.1.restW
    calls := st.calls ++ pr.1.calls }

/-- `main`'s argument loop (see.c lines 366-385).  `usage()` and
`version()` print their fixed text to standard output and exit the
process with success, which is modelled by returning `some` of the
printed item. -/
def mainLoop (fs : String → FileSpec) : List String → LoopState → LoopState × Option Out
  | [], st => (st, none)
  | arg :: rest, st =>
      match classify st.optionsEnded arg with
      | .endOpts => mainLoop fs rest { st with optionsEnded := true }
      | .help => ({ st with out := st.out ++ [Out.help] }, some Out.help)
      | .vers => ({ st with out := st.out ++ [Out.vers] }, some Out.vers)
      | .path => mainLoop fs rest (dispatch fs st (some arg))

/-- The final `while (fflush(stdout) != 0)` loop of `main` (see.c lines
392-404): EPIPE clears the error and breaks with no failure, EINTR
clears the error and retries, any other errno is diagnosed and sets the
failure code.  Returns the contribution to `overall_rc` and the
diagnostics emitted.  An exhausted script means `fflush` succeeded. -/
def flushOut : List Errno → Nat × List Diag
  | [] => (0, [])
  | .epipe :: _ => (0, [])
  | .eintr :: rest => flushOut rest
  | .other :: _ => (1, [.flushOutErr])

/-- The final `while (fflush(stderr) != 0)` loop of `main` (see.c lines
406-414): EINTR clears the error and retries; any other errno silently
sets the failure code. -/
def flushErr : List Errno → Nat
  | [] => 0
  | .eintr :: rest => flushErr rest
  | .epipe :: _ => 1
  | .other :: _ => 1

/-- Observable result of a whole `main` run: the process exit status,
the items printed to standard output, the diagnostics, the verdict of
each dispatched path in order, the early-exit marker when a help or
version flag terminated the run, and the `fwrite` call trace. -/
structure MainRes where
  exitCode : Nat
  out : List Out
  diags : List Diag
  pathRcs : List Nat
  early : Option Out
  calls : List WCall
deriving DecidableEq

/-- The `if (!files_processed) overall_rc |= process_path(NULL);` step of
`main` (see.c lines 387-389). -/
def finishState (fs : String → FileSpec) (st : LoopState) : LoopState :=
  if st.filesProcessed then st else dispatch fs st none

/-- The loop state at the top of `main`: `overall_rc = 0`,
`files_processed = 0`, `options_ended = 0`, nothing yet written. -/
def initState (stdinR : List ReadRes) (w : List WriteEvent) : LoopState :=
  ⟨false, false, 0, [], [], [], stdinR, w, []⟩

/-- The exit status computed by `main`'s final flushes and return
statement (see.c lines 392-416). -/
def exitOf (rc : Nat) (fO fE : List Errno) : Nat :=
  let rc2 := if (flushOut fO).1 = 1 then 1 else rc
  let rc3 := if flushErr fE = 1 then 1 else rc2
  if rc3 = 0 then 0 else 1

/-- The entry sequencer `main` (see.c lines 350-417): run the argument
loop; when no argument was dispatched as a path, dispatch standard input
once; then flush standard output (EPIPE tolerated, EINTR retried) and
standard error (EINTR retried), and exit 0 exactly when `overall_rc`
stayed 0.  A help or version flag exits 0 immediately. -/
def main (args : List String) (fs : String → FileSpec) (stdinR : List ReadRes)
    (w : List WriteEvent) (fO fE : List Errno) : MainRes :=
  let r := mainLoop fs args (initState stdinR w)
  match r.2 with
  | some o => ⟨0, r.1.out, r.1.diags, r.1.pathRcs, some o, r.1.calls⟩
  | none =>
      let st2 := finishState fs r.1
      ⟨exitOf st2.rc fO fE, st2.out, st2.diags ++ (flushOut fO).2, st2.pathRcs,
       none, st2.calls⟩

/-- Splitting of a byte list into the successive chunks returned by
`fread` with a full `n`-byte buffer: each call returns `n` bytes until
fewer than `n` remain. -/
def chunksOf (n : Nat) (l : List Nat) : List (List Nat) :=
  if h : l = [] ∨ n = 0 then [] else l.take n :: chunksOf n (l.drop n)
termination_by l.length
decreasing_by
  simp only [List.length_drop]
  have hl : l ≠ [] := fun he => h (Or.inl he)
  have hn : n ≠ 0 := fun he => h (Or.inr he)
  exact Nat.sub_lt (List.length_pos.mpr hl) (Nat.pos_of_ne_zero hn)

/-- The fault-free `fread` result script of a regular file with the given
contents, read through the 64 KiB transfer buffer. -/
def mkReads (c : List Nat) : List ReadRes :=
  (chunksOf BUFFER_SIZE c).map ReadRes.bytes

/-- A file system in which every path opens, reads its contents without
faults, and closes successfully. -/
def plainFs (contents : String → List Nat) : String → FileSpec :=
  fun p => ⟨true, mkReads (contents p), true⟩

/-! ### Chunking lemmas -/

theorem chunksOf_flatten (n : Nat) (hn : n ≠ 0) (l : List Nat) :
    (chunksOf n l).flatten = l := by
  induction l using chunksOf.induct n with
  | case1 x h =>
      rcases h with h | h
      · simp [chunksOf, h]
      · exact absurd h hn
  | case2 x h ih =>
      rw [chunksOf, dif_neg h, List.flatten_cons, ih, List.take_append_drop]

theorem chunksOf_mem (n : Nat) (hn : n ≠ 0) (l : List Nat) :
    ∀ ch ∈ chunksOf n l, ch ≠ [] ∧ ch.length ≤ n := by
  induction l using chunksOf.induct n with
  | case1 x h =>
      intro ch hch
      rw [chunksOf, dif_pos h] at hch
      simp at hch
  | case2 x h ih =>
      intro ch hch
      rw [chunksOf, dif_neg h] at hch
      rcases List.mem_cons.mp hch with rfl | hch
      · refine ⟨?_, ?_⟩
        · have hl : x ≠ [] := fun he => h (Or.inl he)
          intro he
          have hlen := congrArg List.length he
          simp only [List.length_take, List.length_nil] at hlen
          rcases Nat.min_eq_zero_iff.mp hlen with h1 | h1
          · exact hn h1
          · exact hl (List.length_eq_zero.mp h1)
        · rw [List.length_take]
          exact Nat.min_le_left _ _
      · exact ih ch hch

/-! ### Write-loop lemmas -/

/-- With an exhausted write script and bytes still to write, the single
default `fwrite` transfers everything remaining. -/
theorem writeLoop_nil (chunk : List Nat) (total : Nat) (h : total < chunk.length) :
    writeLoop chunk total []
      = ⟨.completed, chunk.drop total, [], [⟨total, chunk.length - total⟩]⟩ := by
  rw [writeLoop.eq_def]
  simp [Nat.not_le.mpr h]

/-- When the write cursor has reached the fill length the loop exits at
once, issuing no further call. -/
theorem writeLoop_done (chunk : List Nat) (total : Nat) (w : List WriteEvent)
    (h : chunk.length ≤ total) :
    writeLoop chunk total w = ⟨.completed, [], w, []⟩ := by
  rw [writeLoop.eq_def]
  simp [h]

/-- A write loop that ran to completion transferred exactly the bytes of
the chunk from the initial cursor onward: the cursor reached the fill
length and no byte was dropped. -/
theorem writeLoop_completed_out (chunk : List Nat) :
    ∀ (w : List WriteEvent) (total : Nat),
      (writeLoop chunk total w).outcome = WOut.completed →
      (writeLoop chunk total w).out = chunk.drop total := by
  intro w
  induction w with
  | nil =>
      intro total _
      by_cases h : chunk.length ≤ total
      · rw [writeLoop_done chunk total [] h]
        exact (List.drop_eq_nil_of_le h).symm
      · rw [writeLoop_nil chunk total (Nat.not_le.mp h)]
  | cons e rest ih =>
      intro total hc
      by_cases h : chunk.length ≤ total
      · rw [writeLoop_done chunk total (e :: rest) h]
        exact (List.drop_eq_nil_of_le h).symm
      · rw [writeLoop.eq_def] at hc ⊢
        simp only [Nat.not_le.mp h, if_neg h] at hc ⊢
        match e with
        | .accept k =>
            simp only at hc ⊢
            by_cases hz : min k (chunk.length - total) = 0
            · simp [hz] at hc
            · simp only [if_neg hz] at hc ⊢
              rw [ih (total + min k (chunk.length - total)) hc, ← List.drop_drop,
                List.take_append_drop]
        | .werr .eintr =>
            simp only at hc ⊢
            exact ih total hc
        | .werr .epipe => simp at hc
        | .werr .other => simp at hc

/-- Every `fwrite` call issued by the write loop has its cursor at or
beyond the cursor the loop started from. -/
theorem writeLoop_calls_le (chunk : List Nat) :
    ∀ (w : List WriteEvent) (total : Nat),
      ∀ c ∈ (writeLoop chunk total w).calls, total ≤ c.total := by
  intro w
  induction w with
  | nil =>
      intro total c hc
      by_cases h : chunk.length ≤ total
      · rw [writeLoop_done chunk total [] h] at hc
        simp at hc
      · rw [writeLoop_nil chunk total (Nat.not_le.mp h)] at hc
        simp at hc
        rw [hc]
  | cons e rest ih =>
      intro total c hc
      by_cases h : chunk.length ≤ total
      · rw [writeLoop_done chunk total (e :: rest) h] at hc
        simp at hc
      · rw [writeLoop.eq_def] at hc
        simp only [if_neg h] at hc
        match e with
        | .accept k =>
            simp only at hc
            by_cases hz : min k (chunk.length - total) = 0
            · simp [hz] at hc
              rw [hc]
            · simp only [if_neg hz, List.mem_cons] at hc
              rcases hc with rfl | hc
              · exact Nat.le_refl _
              · exact Nat.le_trans (Nat.le_add_right _ _) (ih _ c hc)
        | .werr .eintr =>
            simp only [List.mem_cons] at hc
            rcases hc with rfl | hc
            · exact Nat.le_refl _
            · exact ih total c hc
        | .werr .epipe =>
            simp at hc
            rw [hc]
        | .werr .other =>
            simp at hc
            rw [hc]

/-- The write-progress cursor advances monotonically along the trace of
`fwrite` calls issued by the write loop. -/
theorem writeLoop_calls_mono (chunk : List Nat) :
    ∀ (w : List WriteEvent) (total : Nat),
      List.Chain' (fun a b => a.total ≤ b.total) (writeLoop chunk total w).calls := by
  intro w
  induction w with
  | nil =>
      intro total
      by_cases h : chunk.length ≤ total
      · rw [writeLoop_done chunk total [] h]
        exact List.chain'_nil
      · rw [writeLoop_nil chunk total (Nat.not_le.mp h)]
        exact List.chain'_singleton _
  | cons e rest ih =>
      intro total
      by_cases h : chunk.length ≤ total
      · rw [writeLoop_done chunk total (e :: rest) h]
        exact List.chain'_nil
      · rw [writeLoop.eq_def]
        simp only [if_neg h]
        match e with
        | .accept k =>
            simp only
            by_cases hz : min k (chunk.length - total) = 0
            · simp only [if_pos hz]
              exact List.chain'_singleton _
            · simp only [if_neg hz]
              refine List.chain'_cons'.mpr ⟨?_, ih _⟩
              intro y hy
              have hy' : y ∈ (writeLoop chunk (total + min k (chunk.length - total)) rest).calls :=
                List.mem_of_mem_head? hy
              exact Nat.le_trans (Nat.le_add_right _ _) (writeLoop_calls_le chunk rest _ y hy')
        | .werr .eintr =>
            refine List.chain'_cons'.mpr ⟨?_, ih total⟩
            intro y hy
            exact writeLoop_calls_le chunk rest total y (List.mem_of_mem_head? hy)
        | .werr .epipe => exact List.chain'_singleton _
        | .werr .other => exact List.chain'_singleton _

/-- Every `fwrite` call issued by the write loop has its cursor strictly
inside the chunk and requests exactly the bytes from the cursor to the
fill length. -/
theorem writeLoop_calls_inv (chunk : List Nat) :
    ∀ (w : List WriteEvent) (total : Nat),
      ∀ c ∈ (writeLoop chunk total w).calls,
        c.total < chunk.length ∧ c.requested = chunk.length - c.total := by
  intro w
  induction w with
  | nil =>
      intro total c hc
      by_cases h : chunk.length ≤ total
      · rw [writeLoop_done chunk total [] h] at hc
        simp at hc
      · rw [writeLoop_nil chunk total (Nat.not_le.mp h)] at hc
        simp at hc
        rw [hc]
        exact ⟨Nat.not_le.mp h, rfl⟩
  | cons e rest ih =>
      intro total c hc
      by_cases h : chunk.length ≤ total
      · rw [writeLoop_done chunk total (e :: rest) h] at hc
        simp at hc
      · rw [writeLoop.eq_def] at hc
        simp only [if_neg h] at hc
        match e with
        | .accept k =>
            simp only at hc
            by_cases hz : min k (chunk.length - total) = 0
            · simp [hz] at hc
              rw [hc]
              exact ⟨Nat.not_le.mp h, rfl⟩
            · simp only [if_neg hz, List.mem_cons] at hc
              rcases hc with rfl | hc
              · exact ⟨Nat.not_le.mp h, rfl⟩
              · exact ih _ c hc
        | .werr .eintr =>
            simp only [List.mem_cons] at hc
            rcases hc with rfl | hc
            · exact ⟨Nat.not_le.mp h, rfl⟩
            · exact ih total c hc
        | .werr .epipe =>
            simp at hc
            rw [hc]
            exact ⟨Nat.not_le.mp h, rfl⟩
        | .werr .other =>
            simp at hc
            rw [hc]
            exact ⟨Nat.not_le.mp h, rfl⟩

/-! ### Copy-engine lemmas -/

/-- Every `fwrite` call issued during a whole copy whose reads fit the
transfer buffer requests a positive length and addresses a slice lying
inside the buffer. -/
theorem copy_calls_inv (name : String) :
    ∀ (reads : List ReadRes) (w : List WriteEvent),
      (∀ ch, ReadRes.bytes ch ∈ reads → ch.length ≤ BUFFER_SIZE) →
      ∀ c ∈ (copy_stream name reads w).calls,
        0 < c.requested ∧ c.total + c.requested ≤ BUFFER_SIZE := by
  intro reads
  induction reads with
  | nil =>
      intro w _ c hc
      simp [copy_stream] at hc
  | cons r rest ih =>
      intro w hv c hc
      match r with
      | .eofR => simp [copy_stream] at hc
      | .zeroNoErr => simp [copy_stream] at hc
      | .err .eintr =>
          have hv' : ∀ ch, ReadRes.bytes ch ∈ rest → ch.length ≤ BUFFER_SIZE :=
            fun ch hch => hv ch (List.mem_cons_of_mem _ hch)
          exact ih w hv' c hc
      | .err .epipe => simp [copy_stream] at hc
      | .err .other => simp [copy_stream] at hc
      | .bytes chunk =>
          have hlen : chunk.length ≤ BUFFER_SIZE := hv chunk (List.mem_cons_self _ _)
          have hv' : ∀ ch, ReadRes.bytes ch ∈ rest → ch.length ≤ BUFFER_SIZE :=
            fun ch hch => hv ch (List.mem_cons_of_mem _ hch)
          rw [copy_stream.eq_def] at hc
          simp only at hc
          by_cases hz : chunk.length = 0
          · simp [hz] at hc
          · simp only [if_neg hz] at hc
            have hfromW : ∀ x ∈ (writeLoop chunk 0 w).calls,
                0 < x.requested ∧ x.total + x.requested ≤ BUFFER_SIZE := by
              intro x hx
              obtain ⟨hlt, hreq⟩ := writeLoop_calls_inv chunk w 0 x hx
              refine ⟨?_, ?_⟩
              · rw [hreq]
                exact Nat.sub_pos_of_lt hlt
              · rw [hreq, Nat.add_sub_cancel' (Nat.le_of_lt hlt)]
                exact hlen
            rcases hout : (writeLoop chunk 0 w).outcome with _ | _ | d
            · simp only [hout, List.mem_append] at hc
              rcases hc with hc | hc
              · exact hfromW c hc
              · exact ih _ hv' c hc
            · simp only [hout] at hc
              exact hfromW c hc
            · simp only [hout] at hc
              exact hfromW c hc

/-- A fault-free copy of nonempty chunks with a fully accepting output
transfers exactly the concatenation of the chunks, succeeds, consumes
both scripts, and emits no diagnostic. -/
theorem copy_nofault (name : String) :
    ∀ (chunks : List (List Nat)), (∀ ch ∈ chunks, ch ≠ []) →
      copy_stream name (chunks.map ReadRes.bytes) []
        = ⟨0, chunks.flatten, [], [], [],
           chunks.map (fun ch => ⟨0, ch.length⟩)⟩ := by
  intro chunks
  induction chunks with
  | nil =>
      intro _
      simp [copy_stream]
  | cons ch chunks ih =>
      intro hne
      have hch : ch ≠ [] := hne ch (List.mem_cons_self _ _)
      have hlen : 0 < ch.length := List.length_pos.mpr hch
      rw [List.map_cons, copy_stream.eq_def]
      simp only [if_neg (Nat.pos_iff_ne_zero.mp hlen)]
      rw [writeLoop_nil ch 0 hlen]
      simp only [List.drop_zero, Nat.sub_zero]
      rw [ih (fun x hx => hne x (List.mem_cons_of_mem _ hx))]
      simp

/-- An EINTR read error is cleared and the read retried in place: the
copy behaves exactly as if the interrupted call had not happened. -/
theorem copy_read_eintr (name : String) (rest : List ReadRes) (w : List WriteEvent) :
    copy_stream name (ReadRes.err Errno.eintr :: rest) w = copy_stream name rest w := rfl

/-- A non-EINTR read error is diagnosed, naming the stream, and fails. -/
theorem copy_read_err (name : String) (rest : List ReadRes) (w : List WriteEvent) :
    copy_stream name (ReadRes.err Errno.other :: rest) w
      = ⟨1, [], rest, w, [Diag.readErr name], []⟩ := rfl

/-- When the write loop of the current chunk ends in a broken pipe, the
copy returns success immediately with no diagnostic and without issuing
any further read. -/
theorem copy_pipe (name : String) (chunk : List Nat) (rest : List ReadRes)
    (w : List WriteEvent) (hch : chunk ≠ [])
    (hout : (writeLoop chunk 0 w).outcome = WOut.pipe) :
    (copy_stream name (ReadRes.bytes chunk :: rest) w).rc = 0 ∧
    (copy_stream name (ReadRes.bytes chunk :: rest) w).diags = [] ∧
    (copy_stream name (ReadRes.bytes chunk :: rest) w).restR = rest := by
  rw [copy_stream.eq_def]
  simp only [if_neg (Nat.pos_iff_ne_zero.mp (List.length_pos.mpr hch))]
  simp [hout]

/-- When the write loop of the current chunk does not run to completion,
no further read is issued: the remaining read script is returned
untouched. -/
theorem copy_stops_reads (name : String) (chunk : List Nat) (rest : List ReadRes)
    (w : List WriteEvent) (hch : chunk ≠ [])
    (hout : (writeLoop chunk 0 w).outcome ≠ WOut.completed) :
    (copy_stream name (ReadRes.bytes chunk :: rest) w).restR = rest := by
  rw [copy_stream.eq_def]
  simp only [if_neg (Nat.pos_iff_ne_zero.mp (List.length_pos.mpr hch))]
  rcases hcase : (writeLoop chunk 0 w).outcome with _ | _ | d
  · exact absurd hcase hout
  · simp only [hcase]
  · simp only [hcase]

/-! ### Dispatcher lemmas -/

/-- A `-` argument is dispatched exactly like the no-argument case. -/
theorem process_path_dash (fs : String → FileSpec) (stdinR : List ReadRes)
    (w : List WriteEvent) :
    process_path fs stdinR (some "-") w = process_path fs stdinR none w := by
  simp [process_path]

/-- A standard-input dispatch opens and closes no file handle. -/
theorem process_path_none_handles (fs : String → FileSpec) (stdinR : List ReadRes)
    (w : List WriteEvent) :
    (process_path fs stdinR none w).1.opened = false ∧
    (process_path fs stdinR none w).1.closed = false := ⟨rfl, rfl⟩

/-- A failing open is diagnosed with the path name, fails, and the copy
engine is never invoked: nothing is written and the write script is
untouched. -/
theorem process_path_openFail (fs : String → FileSpec) (stdinR : List ReadRes)
    (p : String) (w : List WriteEvent) (hp : p ≠ "-") (hok : (fs p).ok = false) :
    process_path fs stdinR (some p) w
      = (⟨1, [], w, [Diag.openErr p], false, false, []⟩, stdinR) := by
  simp [process_path, hp, hok]

/-- A successful open is always followed by a close, whatever the copy
outcome; a failing close is diagnosed with the path name and forces the
verdict to failure, and a successful close leaves the copy verdict. -/
theorem process_path_close (fs : String → FileSpec) (stdinR : List ReadRes)
    (p : String) (w : List WriteEvent) (hp : p ≠ "-") (hok : (fs p).ok = true) :
    (process_path fs stdinR (some p) w).1.closed = true ∧
    ((fs p).closeOk = false →
      (process_path fs stdinR (some p) w).1.rc = 1 ∧
      Diag.closeErr p ∈ (process_path fs stdinR (some p) w).1.diags) ∧
    ((fs p).closeOk = true →
      (process_path fs stdinR (some p) w).1.rc = (copy_stream p (fs p).reads w).rc) := by
  refine ⟨?_, ?_, ?_⟩
  · simp [process_path, hp, hok]
  · intro hclose
    simp [process_path, hp, hok, hclose]
  · intro hclose
    simp [process_path, hp, hok, hclose]

/-- A fault-free named file dispatched against a fully accepting output
writes exactly its contents, succeeds, and leaves standard input alone. -/
theorem process_path_plain (contents : String → List Nat) (stdinR : List ReadRes)
    (p : String) (hp : p ≠ "-") :
    process_path (plainFs contents) stdinR (some p) []
      = (⟨0, contents p, [], [], true, true,
          (chunksOf BUFFER_SIZE (contents p)).map (fun ch => ⟨0, ch.length⟩)⟩, stdinR) := by
  have hbuf : BUFFER_SIZE ≠ 0 := by decide
  have hne := chunksOf_mem BUFFER_SIZE hbuf (contents p)
  simp only [process_path, hp, plainFs, mkReads, if_neg hp]
  rw [copy_nofault p (chunksOf BUFFER_SIZE (contents p)) (fun ch hch => (hne ch hch).1)]
  simp [chunksOf_flatten BUFFER_SIZE hbuf (contents p)]

/-! ### Flush lemmas -/

theorem flushOut_cases (l : List Errno) : (flushOut l).1 = 0 ∨ (flushOut l).1 = 1 := by
  induction l with
  | nil => left; rfl
  | cons e rest ih =>
      match e with
      | .eintr => exact ih
      | .epipe => left; rfl
      | .other => right; rfl

theorem flushErr_cases (l : List Errno) : flushErr l = 0 ∨ flushErr l = 1 := by
  induction l with
  | nil => left; rfl
  | cons e rest ih =>
      match e with
      | .eintr => exact ih
      | .epipe => right; rfl
      | .other => right; rfl

/-- The exit status is zero exactly when the loop verdict is zero and
both final flushes contribute no failure. -/
theorem exitOf_zero (rc : Nat) (fO fE : List Errno) :
    exitOf rc fO fE = 0 ↔ rc = 0 ∧ (flushOut fO).1 = 0 ∧ flushErr fE = 0 := by
  unfold exitOf
  rcases flushOut_cases fO with h1 | h1 <;> rcases flushErr_cases fE with h2 | h2 <;>
    simp [h1, h2]

/-! ### Entry-sequencer lemmas -/

theorem mainLoop_nil (fs : String → FileSpec) (st : LoopState) :
    mainLoop fs [] st = (st, none) := rfl

theorem mainLoop_cons_path (fs : String → FileSpec) (arg : String)
    (rest : List String) (st : LoopState)
    (h : classify st.optionsEnded arg = ArgClass.path) :
    mainLoop fs (arg :: rest) st = mainLoop fs rest (dispatch fs st (some arg)) := by
  rw [mainLoop]
  simp only [h]

theorem mainLoop_cons_endOpts (fs : String → FileSpec) (arg : String)
    (rest : List String) (st : LoopState)
    (h : classify st.optionsEnded arg = ArgClass.endOpts) :
    mainLoop fs (arg :: rest) st
      = mainLoop fs rest { st with optionsEnded := true } := by
  rw [mainLoop]
  simp only [h]

theorem mainLoop_cons_help (fs : String → FileSpec) (arg : String)
    (rest : List String) (st : LoopState)
    (h : classify st.optionsEnded arg = ArgClass.help) :
    mainLoop fs (arg :: rest) st
      = ({ st with out := st.out ++ [Out.help] }, some Out.help) := by
  rw [mainLoop]
  simp only [h]

theorem mainLoop_cons_vers (fs : String → FileSpec) (arg : String)
    (rest : List String) (st : LoopState)
    (h : classify st.optionsEnded arg = ArgClass.vers) :
    mainLoop fs (arg :: rest) st
      = ({ st with out := st.out ++ [Out.vers] }, some Out.vers) := by
  rw [mainLoop]
  simp only [h]

/-- Processing a run of plain path arguments before the remaining
arguments is the same as processing the remaining arguments from the
state the run produced, and leaves option recognition open. -/
theorem mainLoop_paths_append (fs : String → FileSpec) (pre rest2 : List String) :
    ∀ st : LoopState, st.optionsEnded = false →
      (∀ a ∈ pre, classify false a = ArgClass.path) →
      mainLoop fs (pre ++ rest2) st = mainLoop fs rest2 (mainLoop fs pre st).1 ∧
      (mainLoop fs pre st).1.optionsEnded = false := by
  induction pre with
  | nil =>
      intro st hopt _
      rw [List.nil_append, mainLoop_nil]
      exact ⟨rfl, hopt⟩
  | cons a pre ih =>
      intro st hopt hall
      have hca : classify st.optionsEnded a = ArgClass.path := by
        rw [hopt]
        exact hall a (List.mem_cons_self _ _)
      rw [List.cons_append, mainLoop_cons_path fs a (pre ++ rest2) st hca,
        mainLoop_cons_path fs a pre st hca]
      exact ih (dispatch fs st (some a)) (by simp [dispatch, hopt])
        (fun x hx => hall x (List.mem_cons_of_mem _ hx))

/-- The loop maintains the aggregation invariant: the running
`overall_rc` is zero exactly when every dispatched path so far
succeeded. -/
theorem mainLoop_rc_inv (fs : String → FileSpec) (args : List String) :
    ∀ st : LoopState, (st.rc = 0 ↔ ∀ x ∈ st.pathRcs, x = 0) →
      ((mainLoop fs args st).1.rc = 0 ↔
        ∀ x ∈ (mainLoop fs args st).1.pathRcs, x = 0) := by
  induction args with
  | nil =>
      intro st h
      rw [mainLoop_nil]
      exact h
  | cons a rest ih =>
      intro st h
      rcases hc : classify st.optionsEnded a
      · rw [mainLoop_cons_endOpts fs a rest st hc]
        exact ih _ h
      · rw [mainLoop_cons_help fs a rest st hc]
        exact h
      · rw [mainLoop_cons_vers fs a rest st hc]
        exact h
      · rw [mainLoop_cons_path fs a rest st hc]
        refine ih _ ?_
        simp only [dispatch, List.mem_append, List.mem_singleton]
        rw [Nat.max_eq_zero_iff]
        constructor
        · rintro ⟨h0, hp⟩ x (hx | rfl)
          · exact h.mp h0 x hx
          · exact hp
        · intro hx
          exact ⟨h.mpr (fun x hxx => hx x (Or.inl hxx)), hx _ (Or.inr rfl)⟩

/-- The early-exit marker of a whole run is the early-exit marker of its
argument loop. -/
theorem main_early (args : List String) (fs : String → FileSpec)
    (stdinR : List ReadRes) (w : List WriteEvent) (fO fE : List Errno) :
    (main args fs stdinR w fO fE).early = (mainLoop fs args (initState stdinR w)).2 := by
  unfold main
  rcases h : (mainLoop fs args (initState stdinR w)).2 <;> simp [h]

/-- The shape of a run whose argument loop did not exit early. -/
theorem main_none (args : List String) (fs : String → FileSpec)
    (stdinR : List ReadRes) (w : List WriteEvent) (fO fE : List Errno)
    (h : (mainLoop fs args (initState stdinR w)).2 = none) :
    main args fs stdinR w fO fE
      = ⟨exitOf (finishState fs (mainLoop fs args (initState stdinR w)).1).rc fO fE,
         (finishState fs (mainLoop fs args (initState stdinR w)).1).out,
         (finishState fs (mainLoop fs args (initState stdinR w)).1).diags
           ++ (flushOut fO).2,
         (finishState fs (mainLoop fs args (initState stdinR w)).1).pathRcs,
         none,
         (finishState fs (mainLoop fs args (initState stdinR w)).1).calls⟩ := by
  simp [main, h]

/-- The shape of a run whose argument loop exited early. -/
theorem main_some (args : List String) (fs : String → FileSpec)
    (stdinR : List ReadRes) (w : List WriteEvent) (fO fE : List Errno) (o : Out)
    (h : (mainLoop fs args (initState stdinR w)).2 = some o) :
    main args fs stdinR w fO fE
      = ⟨0, (mainLoop fs args (initState stdinR w)).1.out,
         (mainLoop fs args (initState stdinR w)).1.diags,
         (mainLoop fs args (initState stdinR w)).1.pathRcs,
         some o,
         (mainLoop fs args (initState stdinR w)).1.calls⟩ := by
  simp [main, h]

/-- A run of plain path arguments never exits early, appends one verdict
per argument, and marks files as processed when the run is nonempty. -/
theorem mainLoop_paths (fs : String → FileSpec) (args : List String) :
    ∀ st : LoopState, st.optionsEnded = false →
      (∀ a ∈ args, classify false a = ArgClass.path) →
      (mainLoop fs args st).2 = none ∧
      (mainLoop fs args st).1.pathRcs.length = st.pathRcs.length + args.length ∧
      (mainLoop fs args st).1.filesProcessed = (st.filesProcessed || !args.isEmpty) := by
  induction args with
  | nil =>
      intro st _ _
      rw [mainLoop_nil]
      simp
  | cons a rest ih =>
      intro st hopt hall
      have hca : classify st.optionsEnded a = ArgClass.path := by
        rw [hopt]
        exact hall a (List.mem_cons_self _ _)
      rw [mainLoop_cons_path fs a rest st hca]
      obtain ⟨h1, h2, h3⟩ := ih (dispatch fs st (some a)) (by simp [dispatch, hopt])
        (fun x hx => hall x (List.mem_cons_of_mem _ hx))
      refine ⟨h1, ?_, ?_⟩
      · rw [h2]
        simp [dispatch]
        omega
      · rw [h3]
        simp [dispatch]

/-- One dispatch preserves the aggregation invariant between the running
`overall_rc` and the recorded per-path verdicts. -/
theorem dispatch_rc_inv (fs : String → FileSpec) (st : LoopState) (path : Option String)
    (h : st.rc = 0 ↔ ∀ x ∈ st.pathRcs, x = 0) :
    ((dispatch fs st path).rc = 0 ↔ ∀ x ∈ (dispatch fs st path).pathRcs, x = 0) := by
  simp only [dispatch, List.mem_append, List.mem_singleton]
  rw [Nat.max_eq_zero_iff]
  constructor
  · rintro ⟨h0, hp⟩ x (hx | rfl)
    · exact h.mp h0 x hx
    · exact hp
  · intro hx
    exact ⟨h.mpr (fun x hxx => hx x (Or.inl hxx)), hx _ (Or.inr rfl)⟩

/-- The implicit standard-input dispatch preserves the aggregation
invariant. -/
theorem finishState_rc_inv (fs : String → FileSpec) (st : LoopState)
    (h : st.rc = 0 ↔ ∀ x ∈ st.pathRcs, x = 0) :
    ((finishState fs st).rc = 0 ↔ ∀ x ∈ (finishState fs st).pathRcs, x = 0) := by
  unfold finishState
  split
  · exact h
  · exact dispatch_rc_inv fs st none h

/-- Processing fault-free named files against a fully accepting output:
no early exit, the output grows by the concatenated contents in argument
order, every verdict is success, and the loop state is otherwise
undisturbed. -/
theorem mainLoop_plain (contents : String → List Nat) (args : List String) :
    ∀ st : LoopState, st.optionsEnded = false → st.w = [] →
      (∀ a ∈ args, classify false a = ArgClass.path ∧ a ≠ "-") →
      (mainLoop (plainFs contents) args st).2 = none ∧
      (mainLoop (plainFs contents) args st).1.out
        = st.out ++ ((args.map contents).flatten).map Out.byte ∧
      (mainLoop (plainFs contents) args st).1.rc = st.rc ∧
      (mainLoop (plainFs contents) args st).1.pathRcs
        = st.pathRcs ++ args.map (fun _ => 0) ∧
      (mainLoop (plainFs contents) args st).1.filesProcessed
        = (st.filesProcessed || !args.isEmpty) ∧
      (mainLoop (plainFs contents) args st).1.diags = st.diags := by
  induction args with
  | nil =>
      intro st _ _ _
      rw [mainLoop_nil]
      simp
  | cons a rest ih =>
      intro st hopt hw hall
      obtain ⟨hca, hda⟩ := hall a (List.mem_cons_self _ _)
      have hca' : classify st.optionsEnded a = ArgClass.path := by
        rw [hopt]
        exact hca
      rw [mainLoop_cons_path _ a rest st hca']
      have hd : dispatch (plainFs contents) st (some a)
          = { st with
              filesProcessed := true
              rc := max st.rc 0
              out := st.out ++ (contents a).map Out.byte
              pathRcs := st.pathRcs ++ [0]
              w := []
              calls := st.calls
                ++ (chunksOf BUFFER_SIZE (contents a)).map (fun ch => ⟨0, ch.length⟩) } := by
        rw [dispatch, hw, process_path_plain contents st.stdinR a hda]
        simp
      obtain ⟨h1, h2, h3, h4, h5, h6⟩ := ih (dispatch (plainFs contents) st (some a))
        (by rw [hd]; exact hopt) (by rw [hd]) (fun x hx => hall x (List.mem_cons_of_mem _ hx))
      refine ⟨h1, ?_, ?_, ?_, ?_, ?_⟩
      · rw [h2, hd]
        simp [List.append_assoc]
      · rw [h3, hd]
        simp
      · rw [h4, hd]
        simp [List.append_assoc]
      · rw [h5, hd]
        simp
      · rw [h6, hd]

/-! ### Claim theorems -/

/-- C3: in every iteration of the stream-copy engine, after a read fills
the transfer buffer with n > 0 bytes, the write-progress cursor advances
monotonically through possibly-partial writes until it equals n before
the next read is issued; no bytes read from the input are silently
dropped on a partial write.  Stated as: a completed write loop has
transferred exactly the bytes from its starting cursor to the fill
length; the cursor is monotone along the trace of issued writes; and a
loop that did not complete leaves the remaining read script untouched,
so the next read is issued only once the cursor reached the fill
length. -/
theorem claim_C3_write_cursor :
    (∀ (chunk : List Nat) (total : Nat) (w : List WriteEvent),
        (writeLoop chunk total w).outcome = WOut.completed →
        (writeLoop chunk total w).out = chunk.drop total) ∧
    (∀ (chunk : List Nat) (total : Nat) (w : List WriteEvent),
        List.Chain' (fun a b => a.total ≤ b.total) (writeLoop chunk total w).calls) ∧
    (∀ (name : String) (chunk : List Nat) (rest : List ReadRes) (w : List WriteEvent),
        chunk ≠ [] → (writeLoop chunk 0 w).outcome ≠ WOut.completed →
        (copy_stream name (ReadRes.bytes chunk :: rest) w).restR = rest) :=
  ⟨fun chunk total w h => writeLoop_completed_out chunk w total h,
   fun chunk total w => writeLoop_calls_mono chunk w total,
   fun name chunk rest w h1 h2 => copy_stops_reads name chunk rest w h1 h2⟩

theorem claim_C3_witness :
    (writeLoop [5, 6] 0 [WriteEvent.accept 1]).out = List.drop 0 [5, 6] ∧
    List.Chain' (fun a b => a.total ≤ b.total)
      (writeLoop [5, 6] 0 [WriteEvent.accept 1]).calls ∧
    (copy_stream "f" [ReadRes.bytes [5, 6]] [WriteEvent.werr Errno.epipe]).restR = [] :=
  ⟨claim_C3_write_cursor.1 [5, 6] 0 [WriteEvent.accept 1] (by decide),
   claim_C3_write_cursor.2.1 [5, 6] 0 [WriteEvent.accept 1],
   claim_C3_write_cursor.2.2 "f" [5, 6] [] [WriteEvent.werr Errno.epipe]
     (by decide) (by decide)⟩

/-- C4: whenever the shared output enters a broken-pipe state — during a
copy's write loop or during the final output flush — the program treats
it as success: the in-progress copy returns success immediately with no
diagnostic, and the final flush does not contribute to the failure exit
status. -/
theorem claim_C4_broken_pipe :
    (∀ (chunk : List Nat) (total : Nat) (w : List WriteEvent), total < chunk.length →
        writeLoop chunk total (WriteEvent.werr Errno.epipe :: w)
          = ⟨WOut.pipe, [], w, [⟨total, chunk.length - total⟩]⟩) ∧
    (∀ (name : String) (chunk : List Nat) (rest : List ReadRes) (w : List WriteEvent),
        chunk ≠ [] → (writeLoop chunk 0 w).outcome = WOut.pipe →
        (copy_stream name (ReadRes.bytes chunk :: rest) w).rc = 0 ∧
        (copy_stream name (ReadRes.bytes chunk :: rest) w).diags = [] ∧
        (copy_stream name (ReadRes.bytes chunk :: rest) w).restR = rest) ∧
    (∀ l : List Errno, flushOut (Errno.epipe :: l) = (0, [])) ∧
    (∀ (args : List String) (fs : String → FileSpec) (sR : List ReadRes)
        (w : List WriteEvent) (l fE : List Errno),
        main args fs sR w (Errno.epipe :: l) fE = main args fs sR w [] fE) := by
  refine ⟨?_, ?_, ?_, ?_⟩
  · intro chunk total w h
    rw [writeLoop.eq_def]
    simp [Nat.not_le.mpr h]
  · intro name chunk rest w h1 h2
    exact copy_pipe name chunk rest w h1 h2
  · intro l
    rfl
  · intro args fs sR w l fE
    rcases h : (mainLoop fs args (initState sR w)).2 with _ | o
    · rw [main_none args fs sR w (Errno.epipe :: l) fE h,
        main_none args fs sR w [] fE h]
      rfl
    · rw [main_some args fs sR w (Errno.epipe :: l) fE o h,
        main_some args fs sR w [] fE o h]

theorem claim_C4_witness :
    writeLoop [7] 0 (WriteEvent.werr Errno.epipe :: [])
      = ⟨WOut.pipe, [], [], [⟨0, 1⟩]⟩ ∧
    ((copy_stream "f" [ReadRes.bytes [7]] [WriteEvent.werr Errno.epipe]).rc = 0 ∧
     (copy_stream "f" [ReadRes.bytes [7]] [WriteEvent.werr Errno.epipe]).diags = [] ∧
     (copy_stream "f" [ReadRes.bytes [7]] [WriteEvent.werr Errno.epipe]).restR = []) :=
  ⟨claim_C4_broken_pipe.1 [7] 0 [] (by decide),
   claim_C4_broken_pipe.2.1 "f" [7] [] [WriteEvent.werr Errno.epipe]
     (by decide) (by decide)⟩

/-- C5: a transient-interruption (EINTR) condition on any read, write,
or flush operation is never reported as a failure and never affects the
exit status: the stream's error state is cleared and the same operation
is retried in place, for every occurrence. -/
theorem claim_C5_eintr_retry :
    (∀ (name : String) (rest : List ReadRes) (w : List WriteEvent),
        copy_stream name (ReadRes.err Errno.eintr :: rest) w
          = copy_stream name rest w) ∧
    (∀ (chunk : List Nat) (total : Nat) (w : List WriteEvent), total < chunk.length →
        (writeLoop chunk total (WriteEvent.werr Errno.eintr :: w)).outcome
          = (writeLoop chunk total w).outcome ∧
        (writeLoop chunk total (WriteEvent.werr Errno.eintr :: w)).out
          = (writeLoop chunk total w).out ∧
        (writeLoop chunk total (WriteEvent.werr Errno.eintr :: w)).rest
          = (writeLoop chunk total w).rest) ∧
    (∀ l : List Errno, flushOut (Errno.eintr :: l) = flushOut l) ∧
    (∀ l : List Errno, flushErr (Errno.eintr :: l) = flushErr l) ∧
    (∀ (args : List String) (fs : String → FileSpec) (sR : List ReadRes)
        (w : List WriteEvent) (l fE : List Errno),
        main args fs sR w (Errno.eintr :: l) fE = main args fs sR w l fE) ∧
    (∀ (args : List String) (fs : String → FileSpec) (sR : List ReadRes)
        (w : List WriteEvent) (fO l : List Errno),
        main args fs sR w fO (Errno.eintr :: l) = main args fs sR w fO l) := by
  refine ⟨?_, ?_, ?_, ?_, ?_, ?_⟩
  · intro name rest w
    rfl
  · intro chunk total w h
    have he : writeLoop chunk total (WriteEvent.werr Errno.eintr :: w)
        = ⟨(writeLoop chunk total w).outcome, (writeLoop chunk total w).out,
           (writeLoop chunk total w).rest,
           ⟨total, chunk.length - total⟩ :: (writeLoop chunk total w).calls⟩ := by
      rw [writeLoop.eq_def]
      simp [Nat.not_le.mpr h]
    exact ⟨by rw [he], by rw [he], by rw [he]⟩
  · intro l
    rfl
  · intro l
    rfl
  · intro args fs sR w l fE
    rcases h : (mainLoop fs args (initState sR w)).2 with _ | o
    · rw [main_none args fs sR w (Errno.eintr :: l) fE h, main_none args fs sR w l fE h]
      rfl
    · rw [main_some args fs sR w (Errno.eintr :: l) fE o h, main_some args fs sR w l fE o h]
  · intro args fs sR w fO l
    rcases h : (mainLoop fs args (initState sR w)).2 with _ | o
    · rw [main_none args fs sR w fO (Errno.eintr :: l) h, main_none args fs sR w fO l h]
      rfl
    · rw [main_some args fs sR w fO (Errno.eintr :: l) o h, main_some args fs sR w fO l o h]

theorem claim_C5_witness :
    (writeLoop [9] 0 (WriteEvent.werr Errno.eintr :: [])).outcome
      = (writeLoop [9] 0 []).outcome ∧
    (writeLoop [9] 0 (WriteEvent.werr Errno.eintr :: [])).out
      = (writeLoop [9] 0 []).out ∧
    (writeLoop [9] 0 (WriteEvent.werr Errno.eintr :: [])).rest
      = (writeLoop [9] 0 []).rest :=
  claim_C5_eintr_retry.2.1 [9] 0 [] (by decide)

/-- C10: throughout the stream-copy engine's write loop, the invariant
0 ≤ written_total ≤ bytes_read ≤ 65536 holds, so every write request
addresses a slice lying entirely within the 64 KiB transfer buffer and
every write request has strictly positive length.  Each issued call
records the cursor `total` and the request length `requested`
(= bytes_read - written_total); positivity of `requested` states
written_total < bytes_read and `total + requested ≤ BUFFER_SIZE` places
the requested slice inside the buffer. -/
theorem claim_C10_buffer_bounds (name : String) (reads : List ReadRes)
    (w : List WriteEvent)
    (hv : ∀ ch, ReadRes.bytes ch ∈ reads → ch.length ≤ BUFFER_SIZE)
    (c : WCall) (hc : c ∈ (copy_stream name reads w).calls) :
    0 < c.requested ∧ c.total + c.requested ≤ BUFFER_SIZE :=
  copy_calls_inv name reads w hv c hc

theorem claim_C10_witness :
    0 < (⟨0, 3⟩ : WCall).requested ∧
    (⟨0, 3⟩ : WCall).total + (⟨0, 3⟩ : WCall).requested ≤ BUFFER_SIZE :=
  claim_C10_buffer_bounds "f" [ReadRes.bytes [1, 2, 3]] [WriteEvent.accept 2]
    (by
      intro ch hch
      simp only [List.mem_singleton, ReadRes.bytes.injEq] at hch
      subst hch
      decide)
    ⟨0, 3⟩ (by decide)

/-- C7: for every path argument whose open fails, the program emits one
diagnostic naming that path and the underlying cause, records a failure
for that path without invoking the copy engine (nothing written, write
script untouched, no handle), and still attempts every remaining path
argument in order: a flag-free argument list always yields exactly one
verdict per argument. -/
theorem claim_C7_open_failure :
    (∀ (fs : String → FileSpec) (stdinR : List ReadRes) (p : String)
        (w : List WriteEvent), p ≠ "-" → (fs p).ok = false →
        process_path fs stdinR (some p) w
          = (⟨1, [], w, [Diag.openErr p], false, false, []⟩, stdinR)) ∧
    (∀ (args : List String) (fs : String → FileSpec) (sR : List ReadRes)
        (w : List WriteEvent) (fO fE : List Errno),
        args ≠ [] → (∀ a ∈ args, classify false a = ArgClass.path) →
        (main args fs sR w fO fE).pathRcs.length = args.length) := by
  refine ⟨?_, ?_⟩
  · intro fs stdinR p w hp hok
    exact process_path_openFail fs stdinR p w hp hok
  · intro args fs sR w fO fE hne hall
    obtain ⟨h1, h2, h3⟩ := mainLoop_paths fs args (initState sR w) rfl hall
    rw [main_none args fs sR w fO fE h1]
    have hemp : args.isEmpty = false := by
      cases args
      · exact absurd rfl hne
      · rfl
    have hfp : (mainLoop fs args (initState sR w)).1.filesProcessed = true := by
      rw [h3, hemp]
      rfl
    simp only [finishState, hfp, if_true]
    rw [h2]
    simp [initState]

theorem claim_C7_witness :
    process_path (fun _ => ⟨false, [], true⟩) [] (some "nope") []
      = (⟨1, [], [], [Diag.openErr "nope"], false, false, []⟩, []) ∧
    (main ["nope", "b"] (fun _ => ⟨false, [], true⟩) [] [] [] []).pathRcs.length
      = (["nope", "b"] : List String).length :=
  ⟨claim_C7_open_failure.1 (fun _ => ⟨false, [], true⟩) [] "nope" [] (by decide) rfl,
   claim_C7_open_failure.2 ["nope", "b"] (fun _ => ⟨false, [], true⟩) [] [] [] []
     (by decide) (by decide)⟩

/-- C8: for every successfully opened file path, the handle is closed on
every exit path out of the path dispatcher, whether the copy succeeded
or failed; if the close fails, a diagnostic naming the path is emitted
and that path's verdict is failure even when the copy succeeded; a
successful close leaves the copy verdict unchanged. -/
theorem claim_C8_close (fs : String → FileSpec) (stdinR : List ReadRes)
    (p : String) (w : List WriteEvent) (hp : p ≠ "-") (hok : (fs p).ok = true) :
    (process_path fs stdinR (some p) w).1.closed = true ∧
    ((fs p).closeOk = false →
      (process_path fs stdinR (some p) w).1.rc = 1 ∧
      Diag.closeErr p ∈ (process_path fs stdinR (some p) w).1.diags) ∧
    ((fs p).closeOk = true →
      (process_path fs stdinR (some p) w).1.rc
        = (copy_stream p (fs p).reads w).rc) :=
  process_path_close fs stdinR p w hp hok

theorem claim_C8_witness :
    (process_path (fun _ => ⟨true, [], false⟩) [] (some "f") []).1.closed = true ∧
    (((fun _ => (⟨true, [], false⟩ : FileSpec)) "f").closeOk = false →
      (process_path (fun _ => ⟨true, [], false⟩) [] (some "f") []).1.rc = 1 ∧
      Diag.closeErr "f" ∈ (process_path (fun _ => ⟨true, [], false⟩) [] (some "f") []).1.diags) ∧
    (((fun _ => (⟨true, [], false⟩ : FileSpec)) "f").closeOk = true →
      (process_path (fun _ => ⟨true, [], false⟩) [] (some "f") []).1.rc
        = (copy_stream "f" ((fun _ => (⟨true, [], false⟩ : FileSpec)) "f").reads []).rc) :=
  claim_C8_close (fun _ => ⟨true, [], false⟩) [] "f" [] (by decide) rfl

/-- C9: a `-` argument is dispatched exactly like the no-argument
standard-input case, no handle is opened or closed for such a dispatch,
a `-` after the `--` terminator still reads standard input (a run on
`["--", "-"]` is observationally the run with no arguments), and the
no-argument run copies standard input to standard output. -/
theorem claim_C9_stdin_dash :
    (∀ (fs : String → FileSpec) (sR : List ReadRes) (w : List WriteEvent),
        process_path fs sR (some "-") w = process_path fs sR none w) ∧
    (∀ (fs : String → FileSpec) (sR : List ReadRes) (w : List WriteEvent),
        (process_path fs sR none w).1.opened = false ∧
        (process_path fs sR none w).1.closed = false) ∧
    (∀ (fs : String → FileSpec) (sR : List ReadRes) (w : List WriteEvent)
        (fO fE : List Errno),
        main ["--", "-"] fs sR w fO fE = main [] fs sR w fO fE) ∧
    (∀ (fs : String → FileSpec) (sR : List ReadRes) (w : List WriteEvent)
        (fO fE : List Errno),
        (main [] fs sR w fO fE).out
          = (copy_stream "stdin" sR w).out.map Out.byte) := by
  refine ⟨?_, ?_, ?_, ?_⟩
  · intro fs sR w
    exact process_path_dash fs sR w
  · intro fs sR w
    exact ⟨rfl, rfl⟩
  · intro fs sR w fO fE
    rfl
  · intro fs sR w fO fE
    rfl

/-- C1: for every invocation whose arguments are readable inputs (no
help/version flag, no `--`, no `-`), the byte sequence written to
standard output equals the concatenation of the inputs' contents in
argument order, byte-for-byte, including empty inputs and inputs larger
than the 64 KiB transfer buffer (the fault-free read script of each
file is its contents cut into `BUFFER_SIZE` chunks). -/
theorem claim_C1_concatenation (args : List String) (contents : String → List Nat)
    (sR : List ReadRes) (fO fE : List Errno) (hne : args ≠ [])
    (hargs : ∀ a ∈ args, classify false a = ArgClass.path ∧ a ≠ "-") :
    (main args (plainFs contents) sR [] fO fE).out
      = ((args.map contents).flatten).map Out.byte := by
  obtain ⟨h1, h2, _, _, h5, _⟩ :=
    mainLoop_plain contents args (initState sR []) rfl rfl hargs
  rw [main_none args (plainFs contents) sR [] fO fE h1]
  have hemp : args.isEmpty = false := by
    cases args
    · exact absurd rfl hne
    · rfl
  have hfp : (mainLoop (plainFs contents) args (initState sR [])).1.filesProcessed
      = true := by
    rw [h5, hemp]
    rfl
  simp only [finishState, hfp, if_true]
  rw [h2]
  rfl

theorem claim_C1_witness :
    (main ["a", "b"] (plainFs (fun p => if p = "a" then [1, 2] else [3]))
        [] [] [] []).out
      = ((["a", "b"].map (fun p => if p = "a" then [1, 2] else [3])).flatten).map
          Out.byte :=
  claim_C1_concatenation ["a", "b"] (fun p => if p = "a" then [1, 2] else [3])
    [] [] [] (by decide) (by decide)

/-- C2 fails on the code as stated: with an argument list `["f", "-h"]`
the file `f` is processed and written to standard output before the
help flag is reached, so standard output does not contain only the
flag's fixed text even though `-h` appears before any `--`. -/
theorem claim_C2_counterexample :
    (main ["f", "-h"] (fun _ => ⟨true, [ReadRes.bytes [97]], true⟩) [] [] [] []).out
      = [Out.byte 97, Out.help] ∧
    (main ["f", "-h"] (fun _ => ⟨true, [ReadRes.bytes [97]], true⟩) [] [] [] []).out
      ≠ [Out.help] ∧
    (main ["f", "-h"] (fun _ => ⟨true, [ReadRes.bytes [97]], true⟩) [] [] [] []).exitCode
      = 0 := by
  decide

/-- C2 amended: when a help or version flag occurs before the first `--`
and every earlier argument is dispatched as a path, the program
processes exactly those earlier paths, then prints only that flag's
fixed text and exits with success status, with no argument after the
flag processed; in particular with no earlier path argument standard
output carries only the flag's fixed text. -/
theorem claim_C2_amended (fs : String → FileSpec) (sR : List ReadRes)
    (w : List WriteEvent) (fO fE : List Errno) (pre post : List String)
    (flag : String) (hpre : ∀ a ∈ pre, classify false a = ArgClass.path) :
    (flag = "-h" ∨ flag = "--help" →
      main (pre ++ flag :: post) fs sR w fO fE
        = ⟨0, (mainLoop fs pre (initState sR w)).1.out ++ [Out.help],
           (mainLoop fs pre (initState sR w)).1.diags,
           (mainLoop fs pre (initState sR w)).1.pathRcs,
           some Out.help,
           (mainLoop fs pre (initState sR w)).1.calls⟩) ∧
    (flag = "-v" ∨ flag = "--version" →
      main (pre ++ flag :: post) fs sR w fO fE
        = ⟨0, (mainLoop fs pre (initState sR w)).1.out ++ [Out.vers],
           (mainLoop fs pre (initState sR w)).1.diags,
           (mainLoop fs pre (initState sR w)).1.pathRcs,
           some Out.vers,
           (mainLoop fs pre (initState sR w)).1.calls⟩) := by
  obtain ⟨happ, hopt⟩ := mainLoop_paths_append fs pre (flag :: post) (initState sR w)
    rfl hpre
  constructor
  · intro hflag
    have hcf : classify (mainLoop fs pre (initState sR w)).1.optionsEnded flag
        = ArgClass.help := by
      rw [hopt]
      rcases hflag with rfl | rfl <;> rfl
    have h2 : mainLoop fs (pre ++ flag :: post) (initState sR w)
        = ({ (mainLoop fs pre (initState sR w)).1 with
             out := (mainLoop fs pre (initState sR w)).1.out ++ [Out.help] },
           some Out.help) := by
      rw [happ, mainLoop_cons_help _ _ _ _ hcf]
    have h3 : (mainLoop fs (pre ++ flag :: post) (initState sR w)).2
        = some Out.help := by
      rw [h2]
    rw [main_some _ _ _ _ _ _ Out.help h3, h2]
  · intro hflag
    have hcf : classify (mainLoop fs pre (initState sR w)).1.optionsEnded flag
        = ArgClass.vers := by
      rw [hopt]
      rcases hflag with rfl | rfl <;> rfl
    have h2 : mainLoop fs (pre ++ flag :: post) (initState sR w)
        = ({ (mainLoop fs pre (initState sR w)).1 with
             out := (mainLoop fs pre (initState sR w)).1.out ++ [Out.vers] },
           some Out.vers) := by
      rw [happ, mainLoop_cons_vers _ _ _ _ hcf]
    have h3 : (mainLoop fs (pre ++ flag :: post) (initState sR w)).2
        = some Out.vers := by
      rw [h2]
    rw [main_some _ _ _ _ _ _ Out.vers h3, h2]

theorem claim_C2_witness :
    main (["f"] ++ "-h" :: []) (fun _ => ⟨true, [ReadRes.bytes [97]], true⟩) [] [] [] []
      = ⟨0,
         (mainLoop (fun _ => ⟨true, [ReadRes.bytes [97]], true⟩) ["f"]
           (initState [] [])).1.out ++ [Out.help],
         (mainLoop (fun _ => ⟨true, [ReadRes.bytes [97]], true⟩) ["f"]
           (initState [] [])).1.diags,
         (mainLoop (fun _ => ⟨true, [ReadRes.bytes [97]], true⟩) ["f"]
           (initState [] [])).1.pathRcs,
         some Out.help,
         (mainLoop (fun _ => ⟨true, [ReadRes.bytes [97]], true⟩) ["f"]
           (initState [] [])).1.calls⟩ :=
  (claim_C2_amended (fun _ => ⟨true, [ReadRes.bytes [97]], true⟩) [] [] [] []
    ["f"] [] "-h" (by decide)).1 (Or.inl rfl)

/-- C6 fails on the code as stated: with arguments `["nope", "-h"]` where
`nope` does not open, the dispatched path fails, yet the help flag makes
the process exit with status 0, so "exit status 0 iff every dispatched
path succeeded and both flushes succeeded" does not hold. -/
theorem claim_C6_counterexample :
    (main ["nope", "-h"] (fun _ => ⟨false, [], true⟩) [] [] [] []).exitCode = 0 ∧
    ¬(∀ x ∈ (main ["nope", "-h"] (fun _ => ⟨false, [], true⟩) [] [] [] []).pathRcs,
        x = 0) := by
  decide

/-- C6 amended: for every invocation that does not exit early through a
help or version flag, the process exit status is 0 if and only if every
dispatched path succeeded and both final flushes succeeded (an EPIPE on
the output flush counting as success, which is built into `flushOut`);
in every other such case the exit status is 1. -/
theorem claim_C6_amended (args : List String) (fs : String → FileSpec)
    (sR : List ReadRes) (w : List WriteEvent) (fO fE : List Errno)
    (h : (main args fs sR w fO fE).early = none) :
    ((main args fs sR w fO fE).exitCode = 0 ↔
      (∀ x ∈ (main args fs sR w fO fE).pathRcs, x = 0) ∧
      (flushOut fO).1 = 0 ∧ flushErr fE = 0) := by
  rw [main_early] at h
  rw [main_none args fs sR w fO fE h]
  have hinv := finishState_rc_inv fs (mainLoop fs args (initState sR w)).1
    (mainLoop_rc_inv fs args (initState sR w) (by simp [initState]))
  dsimp only
  rw [exitOf_zero, hinv]

theorem claim_C6_witness :
    (main ["x"] (fun _ => ⟨true, [], true⟩) [] [] [] []).early = none ∧
    ((main ["x"] (fun _ => ⟨true, [], true⟩) [] [] [] []).exitCode = 0 ↔
      (∀ x ∈ (main ["x"] (fun _ => ⟨true, [], true⟩) [] [] [] []).pathRcs, x = 0) ∧
      (flushOut []).1 = 0 ∧ flushErr [] = 0) :=
  ⟨by decide,
   claim_C6_amended ["x"] (fun _ => ⟨true, [], true⟩) [] [] [] [] (by decide)⟩

end See
